import Mathlib

/-!
# Verification model of the mp4-muxer engine

The repository ships only the public interface surface
(`src/build/mp4-muxer.d.ts`); the engine itself (box construction,
sample/chunk bookkeeping, interleaving, finalize-time patching) is described
by the specification. The definitions below are therefore a shallow
embedding of that engine, modelled from the spec where the implementation is
not part of the provided sources. Bytes are naturals `0 ≤ b < 256`,
timestamps are integers in abstract time units, durations are naturals.
-/

/-- A byte string, each element a value `0..255`. -/
abbrev Bytes := List Nat

/-- Big-endian 32-bit serialization of a natural (truncated mod 2^32). -/
def u32 (n : Nat) : Bytes :=
  [n / 2 ^ 24 % 256, n / 2 ^ 16 % 256, n / 2 ^ 8 % 256, n % 256]

/-- Big-endian 64-bit serialization of a natural (truncated mod 2^64). -/
def u64 (n : Nat) : Bytes :=
  u32 (n / 2 ^ 32 % 2 ^ 32) ++ u32 (n % 2 ^ 32)

/-- Big-endian 32-bit serialization of an integer, two's complement. -/
def u32i (i : Int) : Bytes :=
  u32 ((i % 2 ^ 32).toNat)

theorem u32_length (n : Nat) : (u32 n).length = 4 := rfl

/-- Modelled from the spec: a box is serialized as a 4-byte big-endian size
field (covering the whole box), the 4-byte type tag, then the payload
(§4.2; the 64-bit extended-size form is not exercised by the runs modelled
here, which stay far below the 32-bit range). -/
def boxWrap (tag : Bytes) (payload : Bytes) : Bytes :=
  u32 (8 + payload.length) ++ tag ++ payload

/-- Run-length encoding by coalescing consecutive equal values: maximal runs
of equal elements become single `(count, value)` entries. Used for the
`stts` and `stsc` tables (§4.5). -/
def rle {α : Type} [DecidableEq α] : List α → List (Nat × α)
  | [] => []
  | a :: rest =>
    match rle rest with
    | [] => [(1, a)]
    | (n, b) :: t => if a = b then (n + 1, b) :: t else (1, a) :: (n, b) :: t

/-- Expansion of a run-length encoding back into the flat list. -/
def expandRle {α : Type} (l : List (Nat × α)) : List α :=
  (l.map fun p => List.replicate p.1 p.2).flatten

theorem expandRle_rle {α : Type} [DecidableEq α] (l : List α) :
    expandRle (rle l) = l := by
  induction l with
  | nil => rfl
  | cons a rest ih =>
    show expandRle (match rle rest with
      | [] => [(1, a)]
      | (n, b) :: t => if a = b then (n + 1, b) :: t else (1, a) :: (n, b) :: t) = a :: rest
    rcases h : rle rest with _ | ⟨⟨n, b⟩, t⟩
    · rw [h] at ih
      simp only [expandRle] at ih ⊢
      simp [← ih]
    · rw [h] at ih
      dsimp only
      by_cases hab : a = b
      · subst hab
        rw [if_pos rfl]
        simp only [expandRle, List.map_cons, List.flatten_cons] at ih ⊢
        rw [List.replicate_succ, List.cons_append, ih]
      · rw [if_neg hab]
        simp only [expandRle, List.map_cons, List.flatten_cons] at ih ⊢
        simp [ih]

theorem rle_counts_pos {α : Type} [DecidableEq α] (l : List α) :
    ∀ p ∈ rle l, 0 < p.1 := by
  induction l with
  | nil => simp [rle]
  | cons a rest ih =>
    show ∀ p ∈ (match rle rest with
      | [] => [(1, a)]
      | (n, b) :: t => if a = b then (n + 1, b) :: t else (1, a) :: (n, b) :: t), 0 < p.1
    rcases h : rle rest with _ | ⟨⟨n, b⟩, t⟩
    · simp
    · rw [h] at ih
      dsimp only
      by_cases hab : a = b
      · simp only [if_pos hab]
        intro p hp
        rcases List.mem_cons.1 hp with h1 | h1
        · subst h1; simp
        · exact ih p (List.mem_cons_of_mem _ h1)
      · simp only [if_neg hab]
        intro p hp
        rcases List.mem_cons.1 hp with h1 | h1
        · subst h1; simp
        · exact ih p h1

/-- The head value of an RLE equals the head of the list. -/
theorem rle_head {α : Type} [DecidableEq α] (l : List α) :
    (rle l).head?.map Prod.snd = l.head? := by
  induction l with
  | nil => rfl
  | cons a rest ih =>
    show (match rle rest with
      | [] => [(1, a)]
      | (n, b) :: t => if a = b then (n + 1, b) :: t
        else (1, a) :: (n, b) :: t).head?.map Prod.snd = some a
    rcases h : rle rest with _ | ⟨⟨n, b⟩, t⟩
    · rfl
    · dsimp only
      by_cases hab : a = b
      · subst hab; simp
      · simp [if_neg hab]

/-- Maximality of the coalescing: adjacent RLE entries carry distinct
values, so no two entries could be merged further. -/
theorem rle_chain_ne {α : Type} [DecidableEq α] (l : List α) :
    List.Chain' (fun p q : Nat × α => p.2 ≠ q.2) (rle l) := by
  induction l with
  | nil => simp [rle]
  | cons a rest ih =>
    show List.Chain' (fun p q : Nat × α => p.2 ≠ q.2)
      (match rle rest with
      | [] => [(1, a)]
      | (n, b) :: t => if a = b then (n + 1, b) :: t else (1, a) :: (n, b) :: t)
    rcases h : rle rest with _ | ⟨⟨n, b⟩, t⟩
    · simp
    · rw [h] at ih
      dsimp only
      by_cases hab : a = b
      · simp only [if_pos hab]
        rw [List.chain'_cons'] at ih ⊢
        exact ⟨ih.1, ih.2⟩
      · simp only [if_neg hab]
        exact List.Chain'.cons hab ih

/-- A constant run encodes to a single entry. -/
theorem rle_replicate {α : Type} [DecidableEq α] (N : Nat) (D : α) (h : 0 < N) :
    rle (List.replicate N D) = [(N, D)] := by
  induction N with
  | zero => omega
  | succ n ih =>
    rcases Nat.eq_zero_or_pos n with h0 | hpos
    · subst h0; rfl
    · rw [List.replicate_succ]
      show (match rle (List.replicate n D) with
        | [] => [(1, D)]
        | (m, b) :: t => if D = b then (m + 1, b) :: t
          else (1, D) :: (m, b) :: t) = [(n + 1, D)]
      rw [ih hpos]
      simp

/-! ## Engine data model (modelled from the spec, §3 / §4.3 / §4.4) -/

/-- Error kinds surfaced to the caller (§7). -/
inductive MuxError where
  | timestampError
  | stateError
  | configurationError
  deriving DecidableEq, Repr

/-- Track kind: at most one video and one audio track (§3). -/
inductive TrackKind where
  | video
  | audio
  deriving DecidableEq, Repr

/-- The other track kind, used by the interleaver (§4.4). -/
def TrackKind.other : TrackKind → TrackKind
  | .video => .audio
  | .audio => .video

/-- Timestamp-handling mode (`firstTimestampBehavior`, default `strict`). -/
inductive TimestampMode where
  | strict
  | offset
  | permissive
  deriving DecidableEq, Repr

/-- Frame type of a pushed chunk: keyframe or delta frame. -/
inductive FrameType where
  | key
  | delta
  deriving DecidableEq, Repr

/-- Video codec identifiers supported by the engine (§6). -/
inductive VideoCodec where
  | avc
  | hevc
  deriving DecidableEq, Repr

/-- Modelled from the spec: per-track configuration, immutable after
construction (§3, `TrackConfig`): video carries codec/width/height, audio
carries channel count/sample rate (codec fixed to aac). -/
inductive TrackCfg where
  | videoCfg (codec : VideoCodec) (width height : Nat)
  | audioCfg (numberOfChannels sampleRate : Nat)
  deriving DecidableEq, Repr

/-- A sample held in a track's pending chunk buffer: payload bytes plus its
normalized presentation timestamp, used by the interleaver's release
policy (§4.4). -/
structure PendingSample where
  data : Bytes
  ts : Int
  deriving DecidableEq, Repr

/-- A flushed chunk descriptor: start byte-offset in the sink, number of
samples, and total payload size in bytes (§3, `Chunk`). -/
structure Chunk where
  offset : Nat
  sampleCount : Nat
  size : Nat
  deriving DecidableEq, Repr

/-- Modelled from the spec: per-track runtime state (§3, "Track runtime
state"): parallel per-sample tables (sizes, durations, sync flags,
composition offsets), flushed-chunk descriptors, the interleaver's pending
chunk buffer, the first-seen raw timestamp baseline, the last normalized
timestamp, and whether the last sample's duration is still implicit
(awaiting the next timestamp delta, §4.3 step 2). -/
structure TrackState where
  config : TrackCfg
  decoderConfig : Option Bytes
  sizes : List Nat
  durations : List Nat
  syncFlags : List Bool
  compositionOffsets : List Int
  chunks : List Chunk
  pending : List PendingSample
  firstRaw : Option Int
  lastTimestamp : Option Int
  lastDurImplicit : Bool
  deriving DecidableEq, Repr

/-- A fresh track state for a configured track. -/
def TrackState.init (cfg : TrackCfg) : TrackState :=
  { config := cfg, decoderConfig := none, sizes := [], durations := [],
    syncFlags := [], compositionOffsets := [], chunks := [], pending := [],
    firstRaw := none, lastTimestamp := none, lastDurImplicit := false }

/-- Construction options (`MuxerOptions` in `src/build/mp4-muxer.d.ts`,
minus the target, which is chosen at finalize-interpretation time). -/
structure MuxerOptions where
  video : Option (VideoCodec × Nat × Nat)
  audio : Option (Nat × Nat)
  firstTimestampBehavior : Option TimestampMode
  deriving DecidableEq, Repr

/-- The whole engine state: the two optional tracks, the effective
timestamp mode, the finalized flag (§4.6 state machine), and the flushed
`mdat` payload segments in sink order. -/
structure MuxerState where
  videoTrack : Option TrackState
  audioTrack : Option TrackState
  mode : TimestampMode
  finalized : Bool
  mdatData : List Bytes
  deriving DecidableEq, Repr

/-- Read a track slot by kind. -/
def MuxerState.track (m : MuxerState) : TrackKind → Option TrackState
  | .video => m.videoTrack
  | .audio => m.audioTrack

/-- Replace a track slot by kind. -/
def MuxerState.setTrack (m : MuxerState) : TrackKind → TrackState → MuxerState
  | .video, tr => { m with videoTrack := some tr }
  | .audio, tr => { m with audioTrack := some tr }

namespace Muxer

/-- Construct the engine from options: configured tracks get fresh states;
the timestamp mode defaults to `strict` (d.ts line 58). -/
def init (opts : MuxerOptions) : MuxerState :=
  { videoTrack := (opts.video).map fun v => TrackState.init (.videoCfg v.1 v.2.1 v.2.2),
    audioTrack := (opts.audio).map fun a => TrackState.init (.audioCfg a.1 a.2),
    mode := opts.firstTimestampBehavior.getD .strict,
    finalized := false,
    mdatData := [] }

end Muxer

/-! ## Timestamp handling and the push pipeline (§4.3) -/

/-- Modelled from the spec (§4.3 step 1): `strict` rejects a non-zero first
timestamp; `offset` subtracts the track's first-seen timestamp so the track
starts at zero; `permissive` passes timestamps through. -/
def normalizeTimestamp (mode : TimestampMode) (firstRaw : Option Int) (ts : Int) :
    Except MuxError Int :=
  match mode with
  | .strict =>
    if firstRaw = none ∧ ts ≠ 0 then .error .timestampError else .ok ts
  | .offset => .ok (ts - firstRaw.getD ts)
  | .permissive => .ok ts

/-- Replace the last element of a list, keeping the length. -/
def setLast : List Nat → Nat → List Nat
  | [], _ => []
  | a :: as, v => (a :: as).dropLast ++ [v]

theorem setLast_length (l : List Nat) (v : Nat) : (setLast l v).length = l.length := by
  cases l with
  | nil => rfl
  | cons a as => simp [setLast]

/-- Modelled from the spec (§4.3 step 2): when the previous sample's
duration was implicit (omitted/zero), resolve it as the delta to the next
sample's timestamp. -/
def TrackState.patchImplicitDur (tr : TrackState) (nextTs : Int) : TrackState :=
  if tr.lastDurImplicit then
    match tr.lastTimestamp with
    | some last =>
      { tr with durations := setLast tr.durations (nextTs - last).toNat,
                lastDurImplicit := false }
    | none => tr
  else tr

/-- Modelled from the spec (§4.3 step 3): append one entry to each
per-sample table, remember the pending payload for the interleaver, fix the
first-seen raw timestamp baseline and the last normalized timestamp. -/
def TrackState.appendSample (tr : TrackState) (data : Bytes) (sync : Bool)
    (rawTs normTs : Int) (dur : Nat) (compOff : Int) (meta : Option Bytes) :
    TrackState :=
  { tr with
    sizes := tr.sizes ++ [data.length],
    durations := tr.durations ++ [dur],
    syncFlags := tr.syncFlags ++ [sync],
    compositionOffsets := tr.compositionOffsets ++ [compOff],
    pending := tr.pending ++ [{ data := data, ts := normTs }],
    firstRaw := some (tr.firstRaw.getD rawTs),
    lastTimestamp := some normTs,
    lastDurImplicit := dur = 0,
    decoderConfig := tr.decoderConfig.orElse fun _ => meta }

/-- Modelled from the spec (§4.1/§4.5): the fixed `ftyp` box written at
construction — major brand `isom`, minor version 0x200, compatible brands
`isom`, `avc1`, `mp41`. -/
def ftypBytes : Bytes :=
  boxWrap [102, 116, 121, 112]
    ([105, 115, 111, 109] ++ u32 512 ++
      [105, 115, 111, 109] ++ [97, 118, 99, 49] ++ [109, 112, 52, 49])

/-- The 4-byte `mdat` type tag. -/
def tagMdat : Bytes := [109, 100, 97, 116]

/-- Current absolute write position of the sink: `ftyp`, the 8-byte `mdat`
header, then all flushed chunk segments (§4.4: each flush is one contiguous
write whose start offset becomes the chunk's `stco` entry). -/
def MuxerState.currentPos (m : MuxerState) : Nat :=
  ftypBytes.length + 8 + (m.mdatData.map List.length).sum

/-- Modelled from the spec (§4.4): flush a track's pending chunk buffer as
one contiguous chunk — record its start offset, sample count and byte size
into the track's chunk table, and append the payload to the `mdat` data. A
track with an empty pending buffer is left untouched. -/
def flushKind (m : MuxerState) (k : TrackKind) : MuxerState :=
  match m.track k with
  | none => m
  | some tr =>
    if tr.pending.isEmpty then m
    else
      { m.setTrack k
          { tr with
            pending := [],
            chunks := tr.chunks ++
              [{ offset := m.currentPos, sampleCount := tr.pending.length,
                 size := ((tr.pending.map PendingSample.data).flatten).length }] }
        with mdatData := m.mdatData ++ [(tr.pending.map PendingSample.data).flatten] }

/-- Sample-count threshold at which a pending chunk is flushed regardless
of the other track (§4.4 condition (ii); the spec leaves the bound
unspecified, a fixed constant is chosen). -/
def chunkSampleLimit : Nat := 64

/-- Interleaver release test (§4.4 condition (i)): the other track's
pending chunk is flushed when the incoming sample's timestamp has caught up
with it — pending data is released in presentation order. -/
def shouldFlushOther (m : MuxerState) (k : TrackKind) (ts : Int) : Bool :=
  match m.track k.other with
  | none => false
  | some o =>
    match o.pending.getLast? with
    | none => false
    | some p => decide (p.ts ≤ ts)

/-- Flush this track's own pending chunk when the sample-count threshold is
reached (§4.4 condition (ii)). -/
def flushOwnIfFull (m : MuxerState) (k : TrackKind) : MuxerState :=
  match m.track k with
  | some tr => if chunkSampleLimit ≤ tr.pending.length then flushKind m k else m
  | none => m

/-- The interleaver step run after a sample lands in its track's pending
buffer: possibly release the other track's pending chunk in presentation
order, then flush this track's own buffer if it hit the threshold. -/
def interleave (m : MuxerState) (k : TrackKind) (normTs : Int) : MuxerState :=
  flushOwnIfFull (if shouldFlushOther m k normTs then flushKind m k.other else m) k

/-- Commit a successfully validated sample: patch the previous implicit
duration, append the table entries, then run the interleaver policy
(§4.4). -/
def commitSample (m : MuxerState) (k : TrackKind) (tr : TrackState)
    (data : Bytes) (sync : Bool) (rawTs normTs : Int) (dur : Nat)
    (compOff : Int) (meta : Option Bytes) : MuxerState :=
  interleave
    (m.setTrack k
      ((tr.patchImplicitDur normTs).appendSample data sync rawTs normTs dur compOff meta))
    k normTs

/-- Modelled from the spec (§4.3, §7): the full `pushSample` pipeline —
reject after finalize (StateError), reject an unconfigured track kind
(ConfigurationError), normalize the timestamp per mode, enforce
non-decreasing per-track timestamps (TimestampError), then commit. -/
def addSample (m : MuxerState) (k : TrackKind) (data : Bytes)
    (ftype : FrameType) (ts : Int) (dur : Nat) (compOff : Int)
    (meta : Option Bytes) : Except MuxError MuxerState :=
  if m.finalized then .error .stateError
  else
    match m.track k with
    | none => .error .configurationError
    | some tr =>
      match normalizeTimestamp m.mode tr.firstRaw ts with
      | .error e => .error e
      | .ok normTs =>
        match tr.lastTimestamp with
        | some last =>
          if normTs < last then .error .timestampError
          else .ok (commitSample m k tr data (ftype = .key) ts normTs dur compOff meta)
        | none =>
          .ok (commitSample m k tr data (ftype = .key) ts normTs dur compOff meta)

/-! ## Public API wrappers (src/build/mp4-muxer.d.ts) -/

/-- An encoded chunk object as produced by a `VideoEncoder`/`AudioEncoder`:
frame type, timestamp, duration and payload bytes. -/
structure EncodedChunk where
  ctype : FrameType
  timestamp : Int
  duration : Nat
  data : Bytes
  deriving DecidableEq, Repr

namespace Muxer

/-- `addVideoChunk(chunk, meta, timestamp?)`: the optional `timestamp`
argument, when present, overrides the timestamp carried by the chunk
(d.ts lines 92-99). -/
def addVideoChunk (m : MuxerState) (chunk : EncodedChunk) (meta : Option Bytes)
    (timestamp : Option Int) : Except MuxError MuxerState :=
  addSample m .video chunk.data chunk.ctype (timestamp.getD chunk.timestamp)
    chunk.duration 0 meta

/-- `addAudioChunk(chunk, meta, timestamp?)` (d.ts lines 100-107). -/
def addAudioChunk (m : MuxerState) (chunk : EncodedChunk) (meta : Option Bytes)
    (timestamp : Option Int) : Except MuxError MuxerState :=
  addSample m .audio chunk.data chunk.ctype (timestamp.getD chunk.timestamp)
    chunk.duration 0 meta

/-- `addVideoChunkRaw(data, type, timestamp, duration, meta?)`
(d.ts lines 118-124). -/
def addVideoChunkRaw (m : MuxerState) (data : Bytes) (ftype : FrameType)
    (timestamp : Int) (duration : Nat) (meta : Option Bytes) :
    Except MuxError MuxerState :=
  addSample m .video data ftype timestamp duration 0 meta

/-- `addAudioChunkRaw(data, type, timestamp, duration, meta?)`
(d.ts lines 134-140). -/
def addAudioChunkRaw (m : MuxerState) (data : Bytes) (ftype : FrameType)
    (timestamp : Int) (duration : Nat) (meta : Option Bytes) :
    Except MuxError MuxerState :=
  addSample m .audio data ftype timestamp duration 0 meta

end Muxer

/-- One generic push request, used to describe arbitrary call sequences. -/
structure PushInput where
  kind : TrackKind
  data : Bytes
  ftype : FrameType
  ts : Int
  dur : Nat
  compOff : Int
  meta : Option Bytes
  deriving DecidableEq, Repr

/-- One step of a call sequence: a failing push aborts that call and leaves
the prior state unchanged, the engine stays usable (§7, user-visible
failure behavior). -/
def pushStep (m : MuxerState) (i : PushInput) : MuxerState :=
  match addSample m i.kind i.data i.ftype i.ts i.dur i.compOff i.meta with
  | .ok m' => m'
  | .error _ => m

/-- Run a whole sequence of push calls from a state. -/
def runPushes (m : MuxerState) (inputs : List PushInput) : MuxerState :=
  inputs.foldl pushStep m

/-! ## Box builders (§4.5), modelled from the spec -/

/-- Derived `stts` entries: run-length coalesced sample durations. -/
def sttsEntries (tr : TrackState) : List (Nat × Nat) :=
  rle tr.durations

/-- Turn samples-per-chunk runs into `stsc` entries `(firstChunk, spc)`,
chunk indices 1-based. -/
def stscFrom (idx : Nat) : List (Nat × Nat) → List (Nat × Nat)
  | [] => []
  | (n, c) :: t => (idx, c) :: stscFrom (idx + n) t

/-- Derived `stsc` entries: consecutive chunks with the same
samples-per-chunk value coalesced into one run. -/
def stscEntries (tr : TrackState) : List (Nat × Nat) :=
  stscFrom 1 (rle (tr.chunks.map Chunk.sampleCount))

/-- 1-based indices of the sync samples (for `stss`). -/
def syncIndices (tr : TrackState) : List Nat :=
  (tr.syncFlags.enum.filter Prod.snd).map fun p => p.1 + 1

/-- Modelled from the spec (§4.3 step 3): the track's fixed timescale — the
audio sample rate, or a conventional value for video. -/
def trackTimescale (tr : TrackState) : Nat :=
  match tr.config with
  | .videoCfg _ _ _ => 1000
  | .audioCfg _ rate => rate

/-- A track's total duration in its timescale units. -/
def trackDuration (tr : TrackState) : Nat :=
  tr.durations.sum

/-- Modelled from the spec: the codec sample entry inside `stsd` —
`avc1`/`hev1` with embedded `avcC`/`hvcC` for video, `mp4a` with embedded
`esds` for audio (§4.5). -/
def sampleEntryBytes (tr : TrackState) : Bytes :=
  match tr.config with
  | .videoCfg c w h =>
    let inner := boxWrap (if c = .avc then [97, 118, 99, 67] else [104, 118, 99, 67])
      (tr.decoderConfig.getD [])
    boxWrap (if c = .avc then [97, 118, 99, 49] else [104, 101, 118, 49])
      (u32 w ++ u32 h ++ inner)
  | .audioCfg ch rate =>
    boxWrap [109, 112, 52, 97]
      (u32 ch ++ u32 rate ++ boxWrap [101, 115, 100, 115] (tr.decoderConfig.getD []))

/-- Modelled from the spec (§4.5): the `stbl` sub-boxes — `stsd`, `stts`
(coalesced durations), `stsc` (coalesced sample-to-chunk runs), `stsz`,
`stco` or `co64` (driven by whether any chunk offset exceeds the 32-bit
range), `stss` (video only, omitted when every sample is a sync sample)
and `ctts` (omitted when all composition offsets are zero). -/
def stblBytes (tr : TrackState) : Bytes :=
  let stsd := boxWrap [115, 116, 115, 100] (u32 1 ++ sampleEntryBytes tr)
  let stts := boxWrap [115, 116, 116, 115]
    (u32 (sttsEntries tr).length ++
      ((sttsEntries tr).map fun p => u32 p.1 ++ u32 p.2).flatten)
  let stsc := boxWrap [115, 116, 115, 99]
    (u32 (stscEntries tr).length ++
      ((stscEntries tr).map fun p => u32 p.1 ++ u32 p.2 ++ u32 1).flatten)
  let stsz := boxWrap [115, 116, 115, 122]
    (u32 0 ++ u32 tr.sizes.length ++ (tr.sizes.map u32).flatten)
  let offs := tr.chunks.map Chunk.offset
  let stco :=
    if offs.all fun o => o < 2 ^ 32 then
      boxWrap [115, 116, 99, 111] (u32 offs.length ++ (offs.map u32).flatten)
    else
      boxWrap [99, 111, 54, 52] (u32 offs.length ++ (offs.map u64).flatten)
  let stss :=
    match tr.config with
    | .videoCfg _ _ _ =>
      if tr.syncFlags.all id then []
      else boxWrap [115, 116, 115, 115]
        (u32 (syncIndices tr).length ++ ((syncIndices tr).map u32).flatten)
    | .audioCfg _ _ => []
  let ctts :=
    if tr.compositionOffsets.all fun o => o = 0 then []
    else boxWrap [99, 116, 116, 115]
      (u32 (rle tr.compositionOffsets).length ++
        ((rle tr.compositionOffsets).map fun p => u32 p.1 ++ u32i p.2).flatten)
  boxWrap [115, 116, 98, 108] (stsd ++ stts ++ stsc ++ stsz ++ stco ++ stss ++ ctts)

/-- Modelled from the spec (§4.5): one `trak` box — `tkhd`, then
`mdia/mdhd/hdlr/minf/stbl`. -/
def trakBytes (trackId : Nat) (tr : TrackState) : Bytes :=
  let tkhd := boxWrap [116, 107, 104, 100]
    (u32 trackId ++ u32 (trackDuration tr) ++
      match tr.config with
      | .videoCfg _ w h => u32 w ++ u32 h
      | .audioCfg _ _ => [])
  let mdhd := boxWrap [109, 100, 104, 100]
    (u32 (trackTimescale tr) ++ u32 (trackDuration tr))
  let hdlr := boxWrap [104, 100, 108, 114]
    (match tr.config with
     | .videoCfg _ _ _ => [118, 105, 100, 101]
     | .audioCfg _ _ => [115, 111, 117, 110])
  let minf := boxWrap [109, 105, 110, 102] (stblBytes tr)
  boxWrap [116, 114, 97, 107]
    (tkhd ++ boxWrap [109, 100, 105, 97] (mdhd ++ hdlr ++ minf))

/-- The global movie timescale (a conventional value). -/
def globalTimescale : Nat := 1000

/-- Global duration: the maximum across tracks (§4.6). -/
def globalDuration (m : MuxerState) : Nat :=
  max ((m.videoTrack.map trackDuration).getD 0)
    ((m.audioTrack.map trackDuration).getD 0)

/-- Modelled from the spec (§4.5): the `moov` box — `mvhd` with the global
timescale/duration, then one `trak` per configured track. -/
def moovBytes (m : MuxerState) : Bytes :=
  let mvhd := boxWrap [109, 118, 104, 100]
    (u32 globalTimescale ++ u32 (globalDuration m))
  let vtrak := (m.videoTrack.map (trakBytes 1)).getD []
  let atrak := (m.audioTrack.map (trakBytes 2)).getD []
  boxWrap [109, 111, 111, 118] (mvhd ++ vtrak ++ atrak)

/-! ## Finalizer (§4.6) and target interpretations (§4.1) -/

/-- Modelled from the spec (§4.3 step 2): at end of input, a still-implicit
final duration defaults to the previous sample's duration (0 if
undeterminable). -/
def TrackState.finalizeDurations (tr : TrackState) : TrackState :=
  if tr.lastDurImplicit then
    { tr with
      durations := setLast tr.durations ((tr.durations.dropLast.getLast?).getD 0),
      lastDurImplicit := false }
  else tr

/-- Apply `finalizeDurations` to an optional track. -/
def finalizeTrack : Option TrackState → Option TrackState
  | none => none
  | some tr => some tr.finalizeDurations

/-- Flush both tracks' remaining pending chunks, in track order
(§4.4 condition (iii)). -/
def flushAll (m : MuxerState) : MuxerState :=
  flushKind (flushKind m .video) .audio

/-- A position-targeted write into an already-produced buffer: the model of
the byte writer's "reserve now, patch later" capability (§4.1). -/
def writeAt (buf : Bytes) (pos : Nat) (bs : Bytes) : Bytes :=
  buf.take pos ++ bs ++ buf.drop (pos + bs.length)

/-- The terminal state reached by a successful `finalize()`: all pending
chunks flushed in track order, final implicit durations resolved, and the
state machine moved to its terminal `finalized` state (§4.6). -/
def finalizeState (m : MuxerState) : MuxerState :=
  { flushAll m with
    videoTrack := finalizeTrack (flushAll m).videoTrack,
    audioTrack := finalizeTrack (flushAll m).audioTrack,
    finalized := true }

/-- The completed in-memory buffer: `ftyp`, the `mdat` header written with
a zero size placeholder, the `mdat` payload, then `moov` — and the `mdat`
size field patched in place by a position-targeted write (§4.6). -/
def finalBuffer (m : MuxerState) : Bytes :=
  writeAt
    (ftypBytes ++ u32 0 ++ tagMdat ++ m.mdatData.flatten ++ moovBytes m)
    ftypBytes.length
    (u32 (8 + m.mdatData.flatten.length))

namespace Muxer

/-- Modelled from the spec (§4.6): `finalize()` — reject when already
finalized (StateError) or when no track was configured (ConfigurationError);
otherwise flush all pending chunks, resolve the final implicit durations,
mark the state terminal, build `moov`, lay the file out as `ftyp`, the
`mdat` header placeholder, the `mdat` payload, then `moov`, and patch the
`mdat` size field in place. Returns the terminal state and, for an
in-memory target, the completed buffer. -/
def finalize (m : MuxerState) : Except MuxError (MuxerState × Bytes) :=
  if m.finalized then .error .stateError
  else if m.videoTrack = none ∧ m.audioTrack = none then .error .configurationError
  else .ok (finalizeState m, finalBuffer (finalizeState m))

end Muxer

/-- Modelled from the spec (§4.1): the byte sequence delivered to a
streaming target, which never receives a backward patch — the `mdat` size
is computed analytically before its header is emitted, and each segment is
delivered exactly once in position order. -/
def streamSegments (m : MuxerState) : List Bytes :=
  let payload := m.mdatData.flatten
  [ftypBytes, u32 (8 + payload.length) ++ tagMdat] ++
    m.mdatData ++ [moovBytes m]

/-! ## State-access lemmas -/

theorem track_setTrack_same (m : MuxerState) (k : TrackKind) (tr : TrackState) :
    (m.setTrack k tr).track k = some tr := by
  cases k <;> rfl

theorem track_setTrack_ne (m : MuxerState) (k j : TrackKind) (tr : TrackState)
    (h : j ≠ k) : (m.setTrack k tr).track j = m.track j := by
  cases k <;> cases j <;> first | rfl | exact absurd rfl h

theorem track_mdatUpdate (m : MuxerState) (d : List Bytes) (j : TrackKind) :
    (MuxerState.track { m with mdatData := d } j) = m.track j := by
  cases j <;> rfl

theorem other_ne (k : TrackKind) : k.other ≠ k := by
  cases k <;> simp [TrackKind.other]

theorem flushKind_track_ne (m : MuxerState) (k j : TrackKind) (h : j ≠ k) :
    (flushKind m k).track j = m.track j := by
  unfold flushKind
  cases htr : m.track k with
  | none => rfl
  | some tr =>
    dsimp only
    split
    · rfl
    · rw [track_mdatUpdate, track_setTrack_ne _ _ _ _ h]

theorem flushKind_track_self (m : MuxerState) (k : TrackKind) (tr : TrackState)
    (htr : m.track k = some tr) :
    (flushKind m k).track k =
      (if tr.pending.isEmpty then some tr else
        some { tr with
          pending := [],
          chunks := tr.chunks ++
            [{ offset := m.currentPos, sampleCount := tr.pending.length,
               size := ((tr.pending.map PendingSample.data).flatten).length }] }) := by
  unfold flushKind
  rw [htr]
  dsimp only
  split
  · rw [htr]
  · rw [track_mdatUpdate, track_setTrack_same]

/-! ## The global bookkeeping invariant (spec §3, global invariant) -/

/-- Total bytes recorded in a track's flushed chunk descriptors. -/
def chunkBytes (tr : TrackState) : Nat :=
  (tr.chunks.map Chunk.size).sum

/-- Total payload bytes still sitting in a track's pending chunk buffer. -/
def pendingBytes (tr : TrackState) : Nat :=
  ((tr.pending.map PendingSample.data).map List.length).sum

/-- The per-track bookkeeping invariant: the four per-sample tables have
equal entry counts, and every pushed byte is accounted for either in a
flushed chunk or in the pending buffer. -/
def trackInv (tr : TrackState) : Prop :=
  tr.sizes.length = tr.durations.length ∧
  tr.sizes.length = tr.syncFlags.length ∧
  tr.sizes.length = tr.compositionOffsets.length ∧
  chunkBytes tr + pendingBytes tr = tr.sizes.sum

/-- The engine invariant: every configured track satisfies `trackInv`. -/
def muxInv (m : MuxerState) : Prop :=
  ∀ k tr, m.track k = some tr → trackInv tr

theorem trackInv_init (cfg : TrackCfg) : trackInv (TrackState.init cfg) :=
  ⟨rfl, rfl, rfl, rfl⟩

theorem muxInv_init (opts : MuxerOptions) : muxInv (Muxer.init opts) := by
  intro k tr htr
  cases k <;> simp only [Muxer.init, MuxerState.track] at htr <;>
    (rcases Option.map_eq_some'.1 htr with ⟨c, _, rfl⟩; exact trackInv_init _)

theorem trackInv_patchImplicitDur (tr : TrackState) (ts : Int) (h : trackInv tr) :
    trackInv (tr.patchImplicitDur ts) := by
  obtain ⟨h1, h2, h3, h4⟩ := h
  unfold TrackState.patchImplicitDur
  split
  · split
    · exact ⟨h1.trans (setLast_length _ _).symm, h2, h3, h4⟩
    · exact ⟨h1, h2, h3, h4⟩
  · exact ⟨h1, h2, h3, h4⟩

theorem trackInv_appendSample (tr : TrackState) (data : Bytes) (sync : Bool)
    (rawTs normTs : Int) (dur : Nat) (compOff : Int) (meta : Option Bytes)
    (h : trackInv tr) :
    trackInv (tr.appendSample data sync rawTs normTs dur compOff meta) := by
  obtain ⟨h1, h2, h3, h4⟩ := h
  refine ⟨?_, ?_, ?_, ?_⟩
  · simp [TrackState.appendSample, h1]
  · simp [TrackState.appendSample, h2]
  · simp [TrackState.appendSample, h3]
  · simp only [TrackState.appendSample, chunkBytes, pendingBytes,
      List.map_append, List.sum_append, List.map_cons, List.map_nil,
      List.sum_cons, List.sum_nil] at h4 ⊢
    omega

theorem trackInv_finalizeDurations (tr : TrackState) (h : trackInv tr) :
    trackInv tr.finalizeDurations := by
  obtain ⟨h1, h2, h3, h4⟩ := h
  unfold TrackState.finalizeDurations
  split
  · exact ⟨h1.trans (setLast_length _ _).symm, h2, h3, h4⟩
  · exact ⟨h1, h2, h3, h4⟩

theorem trackInv_flushed (tr : TrackState) (off : Nat) (h : trackInv tr) :
    trackInv
      { tr with
        pending := [],
        chunks := tr.chunks ++
          [{ offset := off, sampleCount := tr.pending.length,
             size := ((tr.pending.map PendingSample.data).flatten).length }] } := by
  obtain ⟨h1, h2, h3, h4⟩ := h
  refine ⟨h1, h2, h3, ?_⟩
  simp only [chunkBytes, pendingBytes, List.map_append, List.sum_append,
    List.map_cons, List.map_nil, List.sum_cons, List.sum_nil] at h4 ⊢
  rw [List.length_flatten]
  omega

theorem muxInv_flushKind (m : MuxerState) (k : TrackKind) (h : muxInv m) :
    muxInv (flushKind m k) := by
  intro j trj hj
  by_cases hjk : j = k
  · subst hjk
    cases htr : m.track j with
    | none => unfold flushKind at hj; rw [htr] at hj; exact h j trj (htr ▸ hj)
    | some tr =>
      rw [flushKind_track_self m j tr htr] at hj
      split at hj
      · exact h j trj (htr.trans hj)
      · cases hj
        exact trackInv_flushed tr _ (h j tr htr)
  · rw [flushKind_track_ne _ _ _ hjk] at hj
    exact h j trj hj

theorem muxInv_flushOwnIfFull (m : MuxerState) (k : TrackKind) (h : muxInv m) :
    muxInv (flushOwnIfFull m k) := by
  unfold flushOwnIfFull
  split
  · split
    · exact muxInv_flushKind m k h
    · exact h
  · exact h

theorem muxInv_interleave (m : MuxerState) (k : TrackKind) (ts : Int)
    (h : muxInv m) : muxInv (interleave m k ts) := by
  unfold interleave
  split
  · exact muxInv_flushOwnIfFull _ _ (muxInv_flushKind _ _ h)
  · exact muxInv_flushOwnIfFull _ _ h

theorem muxInv_commitSample (m : MuxerState) (k : TrackKind) (tr : TrackState)
    (data : Bytes) (sync : Bool) (rawTs normTs : Int) (dur : Nat)
    (compOff : Int) (meta : Option Bytes)
    (h : muxInv m) (htr : trackInv tr) :
    muxInv (commitSample m k tr data sync rawTs normTs dur compOff meta) := by
  unfold commitSample
  apply muxInv_interleave
  intro j trj hj
  by_cases hjk : j = k
  · subst hjk
    rw [track_setTrack_same] at hj
    cases hj
    exact trackInv_appendSample _ _ _ _ _ _ _ _
      (trackInv_patchImplicitDur _ _ htr)
  · rw [track_setTrack_ne _ _ _ _ hjk] at hj
    exact h j trj hj

theorem muxInv_addSample (m : MuxerState) (k : TrackKind) (data : Bytes)
    (ftype : FrameType) (ts : Int) (dur : Nat) (compOff : Int)
    (meta : Option Bytes) (m' : MuxerState) (h : muxInv m)
    (hok : addSample m k data ftype ts dur compOff meta = .ok m') :
    muxInv m' := by
  unfold addSample at hok
  split at hok
  · exact absurd hok (by simp)
  · split at hok
    · exact absurd hok (by simp)
    · rename_i tr htr
      split at hok
      · exact absurd hok (by simp)
      · split at hok
        · split at hok
          · exact absurd hok (by simp)
          · cases hok
            exact muxInv_commitSample _ _ _ _ _ _ _ _ _ _ h (h k tr htr)
        · cases hok
          exact muxInv_commitSample _ _ _ _ _ _ _ _ _ _ h (h k tr htr)

theorem muxInv_pushStep (m : MuxerState) (i : PushInput) (h : muxInv m) :
    muxInv (pushStep m i) := by
  unfold pushStep
  split
  · rename_i m' hok
    exact muxInv_addSample _ _ _ _ _ _ _ _ _ h hok
  · exact h

theorem muxInv_runPushes (inputs : List PushInput) (m : MuxerState)
    (h : muxInv m) : muxInv (runPushes m inputs) := by
  induction inputs generalizing m with
  | nil => exact h
  | cons i rest ih =>
    exact ih (pushStep m i) (muxInv_pushStep m i h)

theorem muxInv_flushAll (m : MuxerState) (h : muxInv m) : muxInv (flushAll m) :=
  muxInv_flushKind _ _ (muxInv_flushKind _ _ h)

theorem track_finalizeState (m : MuxerState) (k : TrackKind) :
    (finalizeState m).track k = finalizeTrack ((flushAll m).track k) := by
  cases k <;> rfl

theorem muxInv_finalizeState (m : MuxerState) (h : muxInv m) :
    muxInv (finalizeState m) := by
  intro k tr htr
  rw [track_finalizeState] at htr
  cases hfl : (flushAll m).track k with
  | none => rw [hfl] at htr; exact absurd htr (by simp [finalizeTrack])
  | some tr0 =>
    rw [hfl] at htr
    simp only [finalizeTrack, Option.some.injEq] at htr
    cases htr
    exact trackInv_finalizeDurations _ (muxInv_flushAll m h k tr0 hfl)

/-! ## Pending buffers are empty after finalize -/

theorem pending_empty_flushKind_self (m : MuxerState) (k : TrackKind)
    (tr : TrackState) (h : (flushKind m k).track k = some tr) :
    tr.pending = [] := by
  cases htr : m.track k with
  | none =>
    unfold flushKind at h
    rw [htr] at h
    rw [htr] at h
    exact absurd h (by simp)
  | some tr0 =>
    rw [flushKind_track_self m k tr0 htr] at h
    split at h
    · rename_i hemp
      cases h
      exact List.isEmpty_iff.1 hemp
    · cases h
      rfl

theorem pending_empty_flushAll (m : MuxerState) (k : TrackKind)
    (tr : TrackState) (h : (flushAll m).track k = some tr) :
    tr.pending = [] := by
  cases k with
  | audio => exact pending_empty_flushKind_self _ _ _ h
  | video =>
    unfold flushAll at h
    rw [flushKind_track_ne _ _ _ (by simp [TrackKind.other])] at h
    exact pending_empty_flushKind_self _ _ _ h

theorem pending_finalizeDurations (tr : TrackState) :
    tr.finalizeDurations.pending = tr.pending := by
  unfold TrackState.finalizeDurations
  split <;> rfl

theorem pending_empty_finalizeState (m : MuxerState) (k : TrackKind)
    (tr : TrackState) (h : (finalizeState m).track k = some tr) :
    tr.pending = [] := by
  rw [track_finalizeState] at h
  cases hfl : (flushAll m).track k with
  | none => rw [hfl] at h; exact absurd h (by simp [finalizeTrack])
  | some tr0 =>
    rw [hfl] at h
    simp only [finalizeTrack, Option.some.injEq] at h
    cases h
    rw [pending_finalizeDurations]
    exact pending_empty_flushAll m k tr0 hfl

/-! ## Shape of a successful finalize -/

theorem finalize_ok_eq (m m' : MuxerState) (buf : Bytes)
    (h : Muxer.finalize m = .ok (m', buf)) :
    m.finalized = false ∧ m' = finalizeState m ∧
      buf = finalBuffer (finalizeState m) := by
  unfold Muxer.finalize at h
  split at h
  · exact absurd h (by simp)
  · split at h
    · exact absurd h (by simp)
    · rename_i hfin _
      simp only [Except.ok.injEq, Prod.mk.injEq] at h
      exact ⟨by simpa using hfin, h.1.symm, h.2.symm⟩

/-! ## Claim theorems -/

/-- C1: for every track and every sequence of pushed samples, after a
successful `finalize()` the per-sample tables are mutually consistent: the
size, duration, sync-flag and composition-offset tables all have the same
number of entries. -/
theorem c1_tables_consistent (opts : MuxerOptions) (inputs : List PushInput)
    (m' : MuxerState) (buf : Bytes) (k : TrackKind) (tr : TrackState)
    (h1 : Muxer.finalize (runPushes (Muxer.init opts) inputs) = .ok (m', buf))
    (h2 : m'.track k = some tr) :
    tr.sizes.length = tr.durations.length ∧
    tr.sizes.length = tr.syncFlags.length ∧
    tr.sizes.length = tr.compositionOffsets.length := by
  obtain ⟨-, hm', -⟩ := finalize_ok_eq _ _ _ h1
  subst hm'
  have hinv := muxInv_finalizeState _
    (muxInv_runPushes inputs _ (muxInv_init opts)) k tr h2
  exact ⟨hinv.1, hinv.2.1, hinv.2.2.1⟩

/-- C2: for every track, after a successful `finalize()` the sum of the
sizes of the track's recorded chunks equals the sum of the sizes of the
track's pushed samples (its size table). -/
theorem c2_chunk_bytes (opts : MuxerOptions) (inputs : List PushInput)
    (m' : MuxerState) (buf : Bytes) (k : TrackKind) (tr : TrackState)
    (h1 : Muxer.finalize (runPushes (Muxer.init opts) inputs) = .ok (m', buf))
    (h2 : m'.track k = some tr) :
    (tr.chunks.map Chunk.size).sum = tr.sizes.sum := by
  obtain ⟨-, hm', -⟩ := finalize_ok_eq _ _ _ h1
  subst hm'
  have hinv := muxInv_finalizeState _
    (muxInv_runPushes inputs _ (muxInv_init opts)) k tr h2
  have hpend := pending_empty_finalizeState _ k tr h2
  have h4 := hinv.2.2.2
  rw [show pendingBytes tr = 0 by simp [pendingBytes, hpend]] at h4
  simpa [chunkBytes] using h4

/-- C3: under `strict` timestamp mode, pushing the first sample of a track
with a non-zero timestamp fails with TimestampError, and the failing call
leaves the engine state unchanged. -/
theorem c3_strict_first_nonzero (m : MuxerState) (k : TrackKind)
    (tr : TrackState) (data : Bytes) (ftype : FrameType) (ts : Int)
    (dur : Nat) (compOff : Int) (meta : Option Bytes)
    (hfin : m.finalized = false) (htr : m.track k = some tr)
    (hfirst : tr.firstRaw = none) (hmode : m.mode = .strict) (hts : ts ≠ 0) :
    addSample m k data ftype ts dur compOff meta = .error .timestampError ∧
    runPushes m [{ kind := k, data := data, ftype := ftype, ts := ts,
                   dur := dur, compOff := compOff, meta := meta }] = m := by
  have herr : addSample m k data ftype ts dur compOff meta
      = .error .timestampError := by
    unfold addSample
    rw [hfin, htr]
    simp only [Bool.false_eq_true, if_false]
    rw [hmode]
    unfold normalizeTimestamp
    rw [if_pos ⟨hfirst, hts⟩]
  refine ⟨herr, ?_⟩
  show pushStep m _ = m
  unfold pushStep
  rw [herr]

/-- C4: pushing a sample whose normalized timestamp is smaller than the
previously pushed sample's timestamp on the same track fails with
TimestampError, leaving the state unchanged — per-track timestamps must be
non-decreasing. -/
theorem c4_monotonicity (m : MuxerState) (k : TrackKind) (tr : TrackState)
    (data : Bytes) (ftype : FrameType) (ts : Int) (dur : Nat) (compOff : Int)
    (meta : Option Bytes) (normTs last : Int)
    (hfin : m.finalized = false) (htr : m.track k = some tr)
    (hnorm : normalizeTimestamp m.mode tr.firstRaw ts = .ok normTs)
    (hlast : tr.lastTimestamp = some last) (hlt : normTs < last) :
    addSample m k data ftype ts dur compOff meta = .error .timestampError ∧
    runPushes m [{ kind := k, data := data, ftype := ftype, ts := ts,
                   dur := dur, compOff := compOff, meta := meta }] = m := by
  have herr : addSample m k data ftype ts dur compOff meta
      = .error .timestampError := by
    unfold addSample
    rw [hfin, htr]
    simp only [Bool.false_eq_true, if_false]
    rw [hnorm, hlast]
    simp only [if_pos hlt]
  refine ⟨herr, ?_⟩
  show pushStep m _ = m
  unfold pushStep
  rw [herr]

theorem lastTimestamp_flushKind (m : MuxerState) (k : TrackKind) :
    ((flushKind m k).track k).map TrackState.lastTimestamp =
      (m.track k).map TrackState.lastTimestamp := by
  cases htr : m.track k with
  | none =>
    unfold flushKind
    rw [htr, htr]
  | some tr =>
    rw [flushKind_track_self m k tr htr]
    split <;> rfl

theorem lastTimestamp_flushOwnIfFull (m : MuxerState) (k : TrackKind) :
    ((flushOwnIfFull m k).track k).map TrackState.lastTimestamp =
      (m.track k).map TrackState.lastTimestamp := by
  unfold flushOwnIfFull
  split
  · split
    · exact lastTimestamp_flushKind m k
    · rfl
  · rfl

theorem lastTimestamp_interleave (m : MuxerState) (k : TrackKind) (ts : Int) :
    ((interleave m k ts).track k).map TrackState.lastTimestamp =
      (m.track k).map TrackState.lastTimestamp := by
  unfold interleave
  split
  · rw [lastTimestamp_flushOwnIfFull,
      flushKind_track_ne _ _ _ (other_ne k).symm]
  · exact lastTimestamp_flushOwnIfFull _ _

/-- C5: under `offset` timestamp mode, a track's first-seen timestamp is
subtracted, so the first sample's adjusted timestamp is exactly 0 on every
configured track: its push succeeds and the track's last-emitted timestamp
is 0. -/
theorem c5_offset_first_zero (m : MuxerState) (k : TrackKind)
    (tr : TrackState) (data : Bytes) (ftype : FrameType) (ts : Int)
    (dur : Nat) (compOff : Int) (meta : Option Bytes)
    (hfin : m.finalized = false) (htr : m.track k = some tr)
    (hmode : m.mode = .offset) (hfirst : tr.firstRaw = none)
    (hlast : tr.lastTimestamp = none) :
    normalizeTimestamp m.mode tr.firstRaw ts = .ok 0 ∧
    ∃ m', addSample m k data ftype ts dur compOff meta = .ok m' ∧
      (m'.track k).map TrackState.lastTimestamp = some (some 0) := by
  have hnorm : normalizeTimestamp m.mode tr.firstRaw ts = .ok 0 := by
    rw [hmode, hfirst]
    unfold normalizeTimestamp
    simp
  refine ⟨hnorm, ?_⟩
  have hok : addSample m k data ftype ts dur compOff meta =
      .ok (commitSample m k tr data (ftype = .key) ts 0 dur compOff meta) := by
    unfold addSample
    rw [hfin, htr]
    simp only [Bool.false_eq_true, if_false]
    rw [hnorm, hlast]
  refine ⟨_, hok, ?_⟩
  unfold commitSample
  rw [lastTimestamp_interleave, track_setTrack_same]
  rfl

/-- C6: `finalize()` is terminal — once it has succeeded, every further
chunk push (generic, video, audio, raw) fails with StateError, and a second
`finalize()` fails with StateError; the engine never re-enters the
accepting state. -/
theorem c6_finalize_terminal (m m' : MuxerState) (buf : Bytes)
    (h : Muxer.finalize m = .ok (m', buf)) :
    m'.finalized = true ∧
    (∀ k data ftype ts dur compOff meta,
      addSample m' k data ftype ts dur compOff meta = .error .stateError) ∧
    (∀ chunk meta tsOpt,
      Muxer.addVideoChunk m' chunk meta tsOpt = .error .stateError) ∧
    (∀ chunk meta tsOpt,
      Muxer.addAudioChunk m' chunk meta tsOpt = .error .stateError) ∧
    (∀ data ftype ts dur meta,
      Muxer.addVideoChunkRaw m' data ftype ts dur meta = .error .stateError) ∧
    (∀ data ftype ts dur meta,
      Muxer.addAudioChunkRaw m' data ftype ts dur meta = .error .stateError) ∧
    Muxer.finalize m' = .error .stateError := by
  obtain ⟨-, hm', -⟩ := finalize_ok_eq _ _ _ h
  subst hm'
  have hfin : (finalizeState m).finalized = true := rfl
  have hpush : ∀ k data ftype ts dur compOff meta,
      addSample (finalizeState m) k data ftype ts dur compOff meta
        = .error .stateError := by
    intro k data ftype ts dur compOff meta
    unfold addSample
    rw [hfin]
    simp
  refine ⟨hfin, hpush, ?_, ?_, ?_, ?_, ?_⟩
  · intro chunk meta tsOpt; exact hpush _ _ _ _ _ _ _
  · intro chunk meta tsOpt; exact hpush _ _ _ _ _ _ _
  · intro data ftype ts dur meta; exact hpush _ _ _ _ _ _ _
  · intro data ftype ts dur meta; exact hpush _ _ _ _ _ _ _
  · unfold Muxer.finalize
    rw [hfin]
    simp

/-! ## The output layout -/

theorem writeAt_exact (a p q r : Bytes) (h : p.length = q.length) :
    writeAt (a ++ (p ++ r)) a.length q = a ++ (q ++ r) := by
  unfold writeAt
  have htake : (a ++ (p ++ r)).take a.length = a := List.take_left a _
  have hdrop : (a ++ (p ++ r)).drop (a.length + q.length) = r := by
    rw [← h, ← List.length_append a p, ← List.append_assoc]
    exact List.drop_left _ _
  rw [htake, hdrop, List.append_assoc]

theorem finalBuffer_eq (m : MuxerState) :
    finalBuffer m =
      ftypBytes ++ u32 (8 + m.mdatData.flatten.length) ++ tagMdat ++
        m.mdatData.flatten ++ moovBytes m := by
  unfold finalBuffer
  have hbase : ftypBytes ++ u32 0 ++ tagMdat ++ m.mdatData.flatten ++ moovBytes m
      = ftypBytes ++ (u32 0 ++ (tagMdat ++ m.mdatData.flatten ++ moovBytes m)) := by
    simp [List.append_assoc]
  rw [hbase, writeAt_exact ftypBytes (u32 0) (u32 (8 + m.mdatData.flatten.length))
    (tagMdat ++ m.mdatData.flatten ++ moovBytes m) (by rw [u32_length, u32_length])]
  simp [List.append_assoc]

/-- C8: for every successful mux run the top-level boxes appear in the
output buffer in the order `ftyp`, then `mdat` (its patched size field
covering the 8-byte header plus the payload), then `moov` built by
`finalize()` from the final state. -/
theorem c8_box_order (opts : MuxerOptions) (inputs : List PushInput)
    (m' : MuxerState) (buf : Bytes)
    (h : Muxer.finalize (runPushes (Muxer.init opts) inputs) = .ok (m', buf)) :
    buf = ftypBytes ++ u32 (8 + m'.mdatData.flatten.length) ++ tagMdat ++
      m'.mdatData.flatten ++ moovBytes m' := by
  obtain ⟨-, hm', hbuf⟩ := finalize_ok_eq _ _ _ h
  subst hm'
  rw [hbuf, finalBuffer_eq]

/-- C9: the concatenation of all bytes delivered to a streaming target — the
`mdat` size computed analytically, with no backward patch — equals, byte for
byte, the buffer produced by the equivalent in-memory run, which reserves a
placeholder size field and patches it at finalize. -/
theorem c9_stream_equals_buffer (opts : MuxerOptions) (inputs : List PushInput)
    (m' : MuxerState) (buf : Bytes)
    (h : Muxer.finalize (runPushes (Muxer.init opts) inputs) = .ok (m', buf)) :
    (streamSegments m').flatten = buf := by
  obtain ⟨-, hm', hbuf⟩ := finalize_ok_eq _ _ _ h
  subst hm'
  rw [hbuf, finalBuffer_eq]
  unfold streamSegments
  simp [List.append_assoc]

/-! ## Run-length table coalescing -/

theorem stscFrom_map_snd (l : List (Nat × Nat)) :
    ∀ i, (stscFrom i l).map Prod.snd = l.map Prod.snd := by
  induction l with
  | nil => intro i; rfl
  | cons p t ih =>
    intro i
    cases p with
    | mk n c => simp [stscFrom, ih]

theorem stscFrom_head_snd (l : List (Nat × Nat)) (i : Nat) :
    ((stscFrom i l).head?).map Prod.snd = (l.head?).map Prod.snd := by
  cases l with
  | nil => rfl
  | cons p t => cases p; rfl

theorem stscFrom_chain_ne (l : List (Nat × Nat)) :
    List.Chain' (fun p q : Nat × Nat => p.2 ≠ q.2) l →
    ∀ i, List.Chain' (fun p q : Nat × Nat => p.2 ≠ q.2) (stscFrom i l) := by
  induction l with
  | nil => intro _ i; simp [stscFrom]
  | cons p t ih =>
    intro h i
    obtain ⟨n, c⟩ := p
    cases t with
    | nil =>
      show List.Chain' _ [(i, c)]
      simp
    | cons q s =>
      obtain ⟨m, d⟩ := q
      rw [List.chain'_cons] at h
      show List.Chain' _ ((i, c) :: (i + n, d) :: stscFrom (i + n + m) s)
      rw [List.chain'_cons]
      exact ⟨h.1, ih h.2 (i + n)⟩

/-- C7: the finalize-time run-length sample tables are maximally coalesced.
For `stts`: the entries expand back to exactly the duration table, adjacent
entries carry distinct durations, every count is positive, and a track
whose durations are N copies of D (N > 0) gets exactly the single entry
`(N, D)`. For `stsc`: the entries carry the same coalesced
samples-per-chunk runs, and adjacent entries carry distinct
samples-per-chunk values. -/
theorem c7_rle_coalesced (tr : TrackState) :
    expandRle (sttsEntries tr) = tr.durations ∧
    List.Chain' (fun p q : Nat × Nat => p.2 ≠ q.2) (sttsEntries tr) ∧
    (∀ p ∈ sttsEntries tr, 0 < p.1) ∧
    (∀ N D, 0 < N → tr.durations = List.replicate N D →
      sttsEntries tr = [(N, D)]) ∧
    (stscEntries tr).map Prod.snd = (rle (tr.chunks.map Chunk.sampleCount)).map Prod.snd ∧
    List.Chain' (fun p q : Nat × Nat => p.2 ≠ q.2) (stscEntries tr) := by
  refine ⟨expandRle_rle tr.durations, rle_chain_ne tr.durations,
    rle_counts_pos tr.durations, ?_, stscFrom_map_snd _ 1,
    stscFrom_chain_ne _ (rle_chain_ne _) 1⟩
  intro N D hN hrep
  unfold sttsEntries
  rw [hrep]
  exact rle_replicate N D hN

/-- C10: `addVideoChunk`/`addAudioChunk` without the optional timestamp
argument use the timestamp carried by the chunk object (equal to the raw
push with the chunk's own timestamp); when the argument is provided it
overrides the chunk's timestamp for all subsequent handling, and the
chunk's own timestamp has no further effect. -/
theorem c10_timestamp_override (m : MuxerState) (chunk : EncodedChunk)
    (meta : Option Bytes) :
    Muxer.addVideoChunk m chunk meta none =
      Muxer.addVideoChunkRaw m chunk.data chunk.ctype chunk.timestamp
        chunk.duration meta ∧
    (∀ t, Muxer.addVideoChunk m chunk meta (some t) =
      Muxer.addVideoChunkRaw m chunk.data chunk.ctype t chunk.duration meta) ∧
    (∀ t ts', Muxer.addVideoChunk m { chunk with timestamp := ts' } meta (some t) =
      Muxer.addVideoChunk m chunk meta (some t)) ∧
    Muxer.addAudioChunk m chunk meta none =
      Muxer.addAudioChunkRaw m chunk.data chunk.ctype chunk.timestamp
        chunk.duration meta ∧
    (∀ t, Muxer.addAudioChunk m chunk meta (some t) =
      Muxer.addAudioChunkRaw m chunk.data chunk.ctype t chunk.duration meta) ∧
    (∀ t ts', Muxer.addAudioChunk m { chunk with timestamp := ts' } meta (some t) =
      Muxer.addAudioChunk m chunk meta (some t)) :=
  ⟨rfl, fun _ => rfl, fun _ _ => rfl, rfl, fun _ => rfl, fun _ _ => rfl⟩

/-! ## Concrete runs used as witnesses -/

instance exceptDecEq {ε α : Type} [DecidableEq ε] [DecidableEq α] :
    DecidableEq (Except ε α) := fun x y =>
  match x, y with
  | .ok a, .ok b =>
    if h : a = b then .isTrue (by rw [h])
    else .isFalse (by intro hc; cases hc; exact h rfl)
  | .error a, .error b =>
    if h : a = b then .isTrue (by rw [h])
    else .isFalse (by intro hc; cases hc; exact h rfl)
  | .ok _, .error _ => .isFalse (by intro hc; cases hc)
  | .error _, .ok _ => .isFalse (by intro hc; cases hc)

set_option maxRecDepth 100000

/-- A small two-track configuration used for concrete runs. -/
def optsW : MuxerOptions :=
  { video := some (.avc, 640, 480), audio := some (2, 48000),
    firstTimestampBehavior := some .permissive }

/-- Four pushes alternating between the two tracks. -/
def inputsW : List PushInput :=
  [{ kind := .video, data := [1, 2, 3], ftype := .key, ts := 0, dur := 33,
     compOff := 0, meta := some [9] },
   { kind := .audio, data := [4, 4], ftype := .key, ts := 0, dur := 21,
     compOff := 0, meta := none },
   { kind := .video, data := [5, 6], ftype := .delta, ts := 33, dur := 33,
     compOff := 0, meta := none },
   { kind := .audio, data := [7], ftype := .key, ts := 21, dur := 21,
     compOff := 0, meta := none }]

def mW : MuxerState := runPushes (Muxer.init optsW) inputsW

def mW' : MuxerState :=
  match Muxer.finalize mW with
  | .ok p => p.1
  | .error _ => Muxer.init optsW

def bufW : Bytes :=
  match Muxer.finalize mW with
  | .ok p => p.2
  | .error _ => []

def vtrW : TrackState :=
  (mW'.videoTrack).getD (TrackState.init (.videoCfg .avc 0 0))

def atrW : TrackState :=
  (mW'.audioTrack).getD (TrackState.init (.audioCfg 0 0))

theorem c1_witness :
    vtrW.sizes.length = vtrW.durations.length ∧
    vtrW.sizes.length = vtrW.syncFlags.length ∧
    vtrW.sizes.length = vtrW.compositionOffsets.length :=
  c1_tables_consistent optsW inputsW mW' bufW .video vtrW (by decide) (by decide)

theorem c2_witness :
    (atrW.chunks.map Chunk.size).sum = atrW.sizes.sum :=
  c2_chunk_bytes optsW inputsW mW' bufW .audio atrW (by decide) (by decide)

def m3W : MuxerState :=
  Muxer.init { optsW with firstTimestampBehavior := none }

def tr3W : TrackState := TrackState.init (.videoCfg .avc 640 480)

theorem c3_witness :
    addSample m3W .video [1] .key 5 0 0 none = .error .timestampError ∧
    runPushes m3W [{ kind := .video, data := [1], ftype := .key, ts := 5,
                     dur := 0, compOff := 0, meta := none }] = m3W :=
  c3_strict_first_nonzero m3W .video tr3W [1] .key 5 0 0 none
    (by decide) (by decide) (by decide) (by decide) (by decide)

def m4W : MuxerState :=
  runPushes (Muxer.init optsW)
    [{ kind := .video, data := [1], ftype := .key, ts := 10, dur := 1,
       compOff := 0, meta := none }]

def tr4W : TrackState :=
  (m4W.videoTrack).getD (TrackState.init (.videoCfg .avc 0 0))

theorem c4_witness :
    addSample m4W .video [2] .key 3 1 0 none = .error .timestampError ∧
    runPushes m4W [{ kind := .video, data := [2], ftype := .key, ts := 3,
                     dur := 1, compOff := 0, meta := none }] = m4W :=
  c4_monotonicity m4W .video tr4W [2] .key 3 1 0 none 3 10
    (by decide) (by decide) (by decide) (by decide) (by decide)

def m5W : MuxerState :=
  Muxer.init { optsW with firstTimestampBehavior := some .offset }

def tr5W : TrackState := TrackState.init (.audioCfg 2 48000)

theorem c5_witness :
    normalizeTimestamp m5W.mode tr5W.firstRaw 500 = .ok 0 ∧
    ∃ m', addSample m5W .audio [1] .key 500 1 0 none = .ok m' ∧
      (m'.track .audio).map TrackState.lastTimestamp = some (some 0) :=
  c5_offset_first_zero m5W .audio tr5W [1] .key 500 1 0 none
    (by decide) (by decide) (by decide) (by decide) (by decide)

theorem c6_witness :
    Muxer.finalize mW' = .error .stateError ∧
    Muxer.addVideoChunkRaw mW' [1] .key 99 0 none = .error .stateError :=
  ⟨(c6_finalize_terminal mW mW' bufW (by decide)).2.2.2.2.2.2,
   (c6_finalize_terminal mW mW' bufW (by decide)).2.2.2.2.1 [1] .key 99 0 none⟩

def trRleW : TrackState :=
  { TrackState.init (.videoCfg .avc 640 480) with durations := [5, 5, 5] }

theorem c7_witness : sttsEntries trRleW = [(3, 5)] :=
  (c7_rle_coalesced trRleW).2.2.2.1 3 5 (by decide) (by decide)

theorem c8_witness :
    bufW = ftypBytes ++ u32 (8 + mW'.mdatData.flatten.length) ++ tagMdat ++
      mW'.mdatData.flatten ++ moovBytes mW' :=
  c8_box_order optsW inputsW mW' bufW (by decide)

theorem c9_witness : (streamSegments mW').flatten = bufW :=
  c9_stream_equals_buffer optsW inputsW mW' bufW (by decide)
